import Mathlib

/-!
Verification of the core of `timeOptimalPlanner.py`: the cost-graph builder
inside `minimizePathCost` and the `dijkstra` shortest-path solver.

Numbers are modelled by real numbers; the value `np.inf` used by the solver is
modelled by `⊤ : WithTop ℝ`.  The Python dict-of-dicts `edgeCost` is modelled
by `EdgeDict`; dict iteration order for the small consecutive integer keys
used by this program is ascending key order, and every `EdgeDict` built in
this file lists its keys in that order.  An uncaught Python exception
(`KeyError` / `ValueError`) is modelled by the result `none`.
-/

/-- Minimum of the values `f 0, f 1, ..., f k`. -/
noncomputable def minUpTo (f : Nat → ℝ) : Nat → ℝ
  | 0 => f 0
  | k + 1 => min (minUpTo f k) (f (k + 1))

/-- Modelled from the spec: the fuel-indexed shortest-path recurrence on the
dense forward DAG, `δ 0 = 0` and `δ (j+1) = min over i ≤ j of (δ i + w i (j+1))`.
The first argument is fuel making the strong recursion structural; it is
erased by `dagDist` below.  This is the specification value (the minimum total
weight of a strictly increasing path from node 0), not part of the code. -/
noncomputable def dagDistF (w : Nat → Nat → ℝ) : Nat → Nat → ℝ
  | _, 0 => 0
  | 0, _ + 1 => 0
  | f + 1, j + 1 => minUpTo (fun i => dagDistF w f i + w i (j + 1)) j

/-- Modelled from the spec: minimum total weight of a strictly increasing
path from node `0` to node `j` in the dense forward graph with weights `w`. -/
noncomputable def dagDist (w : Nat → Nat → ℝ) (j : Nat) : ℝ := dagDistF w j j

/-- Model of the Python dict-of-dicts `edgeCost` handed to `dijkstra`:
`keys` lists the outer dict keys in dict iteration order (ascending, as for
the small consecutive integer keys this program uses), `succ i` lists the
keys of the inner dict `edgeCost[i]`, and `w i j` is the stored edge weight
`edgeCost[i][j]` (meaningful only when `i ∈ keys` and `j ∈ succ i`). -/
structure EdgeDict where
  keys : List Nat
  succ : Nat → List Nat
  w : Nat → Nat → ℝ

/-- Python `max(edgeCost.keys())` (the guard for empty `keys` sits in
`dijkstraRun`, where Python would raise). -/
def maxKey (E : EdgeDict) : Nat := E.keys.foldr max 0

/-- Python `nodeList`: the outer keys followed by `max(edgeCost.keys())+1`. -/
def dNodes (E : EdgeDict) : List Nat := E.keys ++ [maxKey E + 1]

/-- Python `min(costToGo, key=costToGo.get)` restricted to the unsettled
nodes: the first key (in ascending iteration order) attaining the minimal
cost-to-go. -/
noncomputable def pickMin (c : Nat → WithTop ℝ) : List Nat → Nat
  | [] => 0
  | x :: xs => xs.foldl (fun b y => if c y < c b then y else b) x

/-- One relaxation sweep from node `i`: for every still-alive inner key `j`
of `edgeCost[i]`, replace `costToGo[j]` by `costToGo[i] + edgeCost[i][j]`
when that is strictly smaller. -/
noncomputable def relax (E : EdgeDict) (i : Nat) (alive : List Nat)
    (c : Nat → WithTop ℝ) : Nat → WithTop ℝ :=
  fun j =>
    if j ∈ E.succ i ∧ j ∈ alive ∧ c i + (E.w i j : WithTop ℝ) < c j then
      c i + (E.w i j : WithTop ℝ)
    else c j

/-- The `while True` loop of `dijkstra`.  The state is the list of unsettled
nodes (which also equals the key set of `costToGo`) and the cost-to-go map;
the fuel is set to the initial number of nodes by `dijkstraRun` and is never
exhausted.  The second component counts minimum-cost extractions performed.
A `KeyError` (extracted node absent from the outer dict while unsettled
nodes remain) yields `none`. -/
noncomputable def dLoop (E : EdgeDict) :
    Nat → List Nat → (Nat → WithTop ℝ) → Option (WithTop ℝ) × Nat
  | 0, _, _ => (none, 0)
  | _ + 1, [], _ => (none, 0)
  | fuel + 1, a :: as, c =>
    let i := pickMin c (a :: as)
    let alive2 := (a :: as).erase i
    if alive2 = [] then (some (c i), 1)
    else if i ∈ E.keys then
      let r := dLoop E fuel alive2 (relax E i alive2 c)
      (r.1, r.2 + 1)
    else (none, 1)

/-- Initial `costToGo`: `0` at node `0`, `np.inf` everywhere else. -/
noncomputable def initCost : Nat → WithTop ℝ := fun j => if j = 0 then 0 else ⊤

/-- The `dijkstra` function of the source, instrumented with the number of
extractions.  An empty outer dict makes Python `max` raise (`none`); if `0`
is not an outer key the first `nodeList.index(0)` call raises before any
extraction (`none`). -/
noncomputable def dijkstraRun (E : EdgeDict) : Option (WithTop ℝ) × Nat :=
  if E.keys = [] then (none, 0)
  else if 0 ∈ E.keys then dLoop E (dNodes E).length (dNodes E) initCost
  else (none, 0)

/-- The value returned by `dijkstra`; `none` models an uncaught exception. -/
noncomputable def dijkstra (E : EdgeDict) : Option (WithTop ℝ) :=
  (dijkstraRun E).1

/-- Python `np.sqrt(pow(dx,2) + pow(dy,2))` for the displacement between two
waypoints. -/
noncomputable def eucDist (p q : ℝ × ℝ) : ℝ :=
  Real.sqrt ((q.1 - p.1) ^ 2 + (q.2 - p.2) ^ 2)

/-- Python `range(j+1, k)`: the augmented indices skipped by the edge
`j → k`. -/
def skippedWaypoints (j k : Nat) : List Nat := List.range' (j + 1) (k - (j + 1))

/-- Python `sum([costList[i][l-1] for l in skippedWaypoints])`. -/
noncomputable def skippingCost (costs : List ℝ) (j k : Nat) : ℝ :=
  ((skippedWaypoints j k).map (fun l => costs.getD (l - 1) 0)).sum

/-- Python `distance/robotVelocity + dwellTime` for the edge `j → k`. -/
noncomputable def travelCost (wl : List (ℝ × ℝ)) (v d : ℝ) (j k : Nat) : ℝ :=
  eucDist (wl.getD j (0, 0)) (wl.getD k (0, 0)) / v + d

/-- Python `edgeCost[j][k] = travelCost + skippingCost`. -/
noncomputable def edgeWeight (wl : List (ℝ × ℝ)) (costs : List ℝ) (v d : ℝ)
    (j k : Nat) : ℝ :=
  travelCost wl v d j k + skippingCost costs j k

/-- The dense forward dict shape shared by every graph the builder makes:
outer keys `0, ..., n-2` (Python `for j in range(numWaypoints - 1)`), inner
keys `j+1, ..., n-1` (Python `set(range(numWaypoints)) - set(range(j+1))`). -/
def denseE (n : Nat) (w : Nat → Nat → ℝ) : EdgeDict :=
  { keys := List.range (n - 1)
    succ := fun j => List.range' (j + 1) (n - 1 - j)
    w := w }

/-- The `edgeCost` dict built by one iteration of `minimizePathCost` for a
single test case with augmented waypoint list `wl`. -/
noncomputable def buildGraph (wl : List (ℝ × ℝ)) (costs : List ℝ) (v d : ℝ) :
    EdgeDict :=
  denseE wl.length (edgeWeight wl costs v d)

/-- The dict `edgeCost` has an entry for the pair `(i, j)`. -/
def hasEdge (E : EdgeDict) (i j : Nat) : Prop := i ∈ E.keys ∧ j ∈ E.succ i

/-- The body of `minimizePathCost` for one test case: build the graph, run
`dijkstra`. -/
noncomputable def minimizePathCostCase (wl : List (ℝ × ℝ)) (costs : List ℝ)
    (v d : ℝ) : Option (WithTop ℝ) :=
  dijkstra (buildGraph wl costs v d)

/-- The `minimizePathCost` function of the source: one result per test case,
in test-case order (`for i in range(numCases)`). -/
noncomputable def minimizePathCost (wpl : List (List (ℝ × ℝ)))
    (cl : List (List ℝ)) (v d : ℝ) : List (Option (WithTop ℝ)) :=
  (List.range wpl.length).map
    (fun i => minimizePathCostCase (wpl.getD i []) (cl.getD i []) v d)

/-- Invariant device for the solver proof: the best cost-to-go of node `j`
using only settled (no longer alive) strict predecessors, with node `0`
pinned to `0`. -/
noncomputable def bestVia (w : Nat → Nat → ℝ) (alive : List Nat) (j : Nat) :
    WithTop ℝ :=
  if j = 0 then 0
  else ((Finset.range j).filter (fun i => i ∉ alive)).inf
    (fun i => ((dagDist w i + w i j : ℝ) : WithTop ℝ))

theorem minUpTo_le (f : Nat → ℝ) : ∀ {k i : Nat}, i ≤ k → minUpTo f k ≤ f i := by
  intro k
  induction k with
  | zero =>
    intro i hi
    have : i = 0 := Nat.le_zero.mp hi
    subst this
    exact le_of_eq rfl
  | succ k ih =>
    intro i hi
    rcases Nat.lt_or_ge i (k + 1) with h | h
    · exact le_trans (min_le_left _ _) (ih (Nat.lt_succ_iff.mp h))
    · have : i = k + 1 := le_antisymm hi h
      subst this
      exact min_le_right _ _

theorem minUpTo_attained (f : Nat → ℝ) : ∀ k, ∃ i, i ≤ k ∧ minUpTo f k = f i := by
  intro k
  induction k with
  | zero => exact ⟨0, le_refl 0, rfl⟩
  | succ k ih =>
    obtain ⟨i, hi, he⟩ := ih
    rcases le_total (minUpTo f k) (f (k + 1)) with h | h
    · exact ⟨i, Nat.le_succ_of_le hi, by rw [minUpTo, min_eq_left h]; exact he⟩
    · exact ⟨k + 1, le_refl _, by rw [minUpTo, min_eq_right h]⟩

theorem minUpTo_congr {f g : Nat → ℝ} :
    ∀ {k}, (∀ i, i ≤ k → f i = g i) → minUpTo f k = minUpTo g k := by
  intro k
  induction k with
  | zero => intro h; exact h 0 (le_refl 0)
  | succ k ih =>
    intro h
    rw [minUpTo, minUpTo, ih (fun i hi => h i (Nat.le_succ_of_le hi)),
      h (k + 1) (le_refl _)]

theorem minUpTo_mono {f g : Nat → ℝ} :
    ∀ {k}, (∀ i, i ≤ k → f i ≤ g i) → minUpTo f k ≤ minUpTo g k := by
  intro k
  induction k with
  | zero => intro h; exact h 0 (le_refl 0)
  | succ k ih =>
    intro h
    exact min_le_min (ih (fun i hi => h i (Nat.le_succ_of_le hi)))
      (h (k + 1) (le_refl _))

theorem dagDistF_zero (w : Nat → Nat → ℝ) (f : Nat) : dagDistF w f 0 = 0 := by
  cases f <;> rfl

theorem dagDistF_stable (w : Nat → Nat → ℝ) :
    ∀ f g j, j ≤ f → j ≤ g → dagDistF w f j = dagDistF w g j := by
  intro f
  induction f with
  | zero =>
    intro g j hjf _
    have : j = 0 := Nat.le_zero.mp hjf
    subst this
    rw [dagDistF_zero, dagDistF_zero]
  | succ f ih =>
    intro g j hjf hjg
    cases j with
    | zero => rw [dagDistF_zero, dagDistF_zero]
    | succ j =>
      cases g with
      | zero => omega
      | succ g =>
        simp only [dagDistF]
        exact minUpTo_congr (fun i hij => by
          rw [ih g i (by omega) (by omega)])

theorem dagDist_zero (w : Nat → Nat → ℝ) : dagDist w 0 = 0 := rfl

theorem dagDist_succ (w : Nat → Nat → ℝ) (j : Nat) :
    dagDist w (j + 1) = minUpTo (fun i => dagDist w i + w i (j + 1)) j := by
  show dagDistF w (j + 1) (j + 1) = _
  simp only [dagDistF]
  exact minUpTo_congr (fun i hij => by
    rw [dagDistF_stable w j i i hij (le_refl i)]; rfl)

theorem dagDist_le_step (w : Nat → Nat → ℝ) {i j : Nat} (h : i ≤ j) :
    dagDist w (j + 1) ≤ dagDist w i + w i (j + 1) := by
  rw [dagDist_succ]
  exact minUpTo_le _ h

theorem dagDist_nonneg (w : Nat → Nat → ℝ) (n : Nat)
    (Hw : ∀ i j, i < j → j < n → 0 ≤ w i j) :
    ∀ j, j < n → 0 ≤ dagDist w j := by
  have aux : ∀ m j, j ≤ m → j < n → 0 ≤ dagDist w j := by
    intro m
    induction m with
    | zero =>
      intro j hj _
      have : j = 0 := Nat.le_zero.mp hj
      subst this
      rw [dagDist_zero]
    | succ m ih =>
      intro j hj hjn
      rcases Nat.lt_or_ge j (m + 1) with h | h
      · exact ih j (Nat.lt_succ_iff.mp h) hjn
      · have hjm : j = m + 1 := le_antisymm hj h
        subst hjm
        obtain ⟨i, hi, he⟩ := minUpTo_attained (fun i => dagDist w i + w i (m + 1)) m
        rw [dagDist_succ, he]
        have h1 : 0 ≤ dagDist w i := ih i hi (lt_trans (Nat.lt_succ_of_le hi) hjn)
        have h2 : 0 ≤ w i (m + 1) := Hw i (m + 1) (Nat.lt_succ_of_le hi) hjn
        exact add_nonneg h1 h2
  exact fun j => aux j j (le_refl j)

theorem dagDistF_mono (w w' : Nat → Nat → ℝ)
    (hw : ∀ i j, i < j → w i j ≤ w' i j) :
    ∀ f j, dagDistF w f j ≤ dagDistF w' f j := by
  intro f
  induction f with
  | zero => intro j; cases j <;> exact le_of_eq rfl
  | succ f ih =>
    intro j
    cases j with
    | zero => exact le_of_eq rfl
    | succ j =>
      simp only [dagDistF]
      exact minUpTo_mono (fun i hij =>
        add_le_add (ih i) (hw i (j + 1) (by omega)))

theorem dagDist_mono (w w' : Nat → Nat → ℝ)
    (hw : ∀ i j, i < j → w i j ≤ w' i j) (j : Nat) :
    dagDist w j ≤ dagDist w' j :=
  dagDistF_mono w w' hw j j

theorem dagDist_le_consec (w : Nat → Nat → ℝ) :
    ∀ m, dagDist w m ≤ ∑ i in Finset.range m, w i (i + 1) := by
  intro m
  induction m with
  | zero => rw [dagDist_zero]; simp
  | succ m ih =>
    calc dagDist w (m + 1) ≤ dagDist w m + w m (m + 1) :=
          dagDist_le_step w (le_refl m)
      _ ≤ _ := by
          rw [Finset.sum_range_succ]
          exact add_le_add_right ih _

theorem dagDist_le_direct (w : Nat → Nat → ℝ) (m : Nat) (hm : 1 ≤ m) :
    dagDist w m ≤ w 0 m := by
  obtain ⟨k, rfl⟩ : ∃ k, m = k + 1 := ⟨m - 1, by omega⟩
  calc dagDist w (k + 1) ≤ dagDist w 0 + w 0 (k + 1) :=
        dagDist_le_step w (Nat.zero_le k)
    _ = w 0 (k + 1) := by rw [dagDist_zero, zero_add]

theorem pickMin_foldl_mem (c : Nat → WithTop ℝ) :
    ∀ (xs : List Nat) (x : Nat),
      xs.foldl (fun b y => if c y < c b then y else b) x ∈ x :: xs := by
  intro xs
  induction xs with
  | nil => intro x; exact List.mem_singleton.mpr rfl
  | cons y ys ih =>
    intro x
    rw [List.foldl_cons]
    rcases List.mem_cons.mp (ih (if c y < c x then y else x)) with h1 | h1
    · rw [h1]
      by_cases hc : c y < c x
      · rw [if_pos hc]; exact List.mem_cons_of_mem _ (List.mem_cons_self _ _)
      · rw [if_neg hc]; exact List.mem_cons_self _ _
    · exact List.mem_cons_of_mem _ (List.mem_cons_of_mem _ h1)

theorem pickMin_foldl_le (c : Nat → WithTop ℝ) :
    ∀ (xs : List Nat) (x : Nat),
      c (xs.foldl (fun b y => if c y < c b then y else b) x) ≤ c x ∧
      ∀ j ∈ xs, c (xs.foldl (fun b y => if c y < c b then y else b) x) ≤ c j := by
  intro xs
  induction xs with
  | nil => intro x; exact ⟨le_refl _, fun j hj => absurd hj (List.not_mem_nil j)⟩
  | cons y ys ih =>
    intro x
    rw [List.foldl_cons]
    obtain ⟨h1, h2⟩ := ih (if c y < c x then y else x)
    refine ⟨le_trans h1 ?_, ?_⟩
    · by_cases hc : c y < c x
      · rw [if_pos hc]; exact le_of_lt hc
      · rw [if_neg hc]
    · intro j hj
      rcases List.mem_cons.mp hj with rfl | hj2
      · refine le_trans h1 ?_
        by_cases hc : c j < c x
        · rw [if_pos hc]
        · rw [if_neg hc]; exact le_of_not_lt hc
      · exact h2 j hj2

theorem pickMin_mem (c : Nat → WithTop ℝ) {l : List Nat} (h : l ≠ []) :
    pickMin c l ∈ l := by
  cases l with
  | nil => exact absurd rfl h
  | cons x xs => exact pickMin_foldl_mem c xs x

theorem pickMin_le (c : Nat → WithTop ℝ) {l : List Nat} :
    ∀ j ∈ l, c (pickMin c l) ≤ c j := by
  cases l with
  | nil => intro j hj; exact absurd hj (List.not_mem_nil j)
  | cons x xs =>
    intro j hj
    obtain ⟨h1, h2⟩ := pickMin_foldl_le c xs x
    rcases List.mem_cons.mp hj with rfl | hj2
    · exact h1
    · exact h2 j hj2

theorem mem_succ_denseE (n : Nat) (w : Nat → Nat → ℝ) {i j : Nat}
    (hi : i < n - 1) : j ∈ (denseE n w).succ i ↔ i < j ∧ j < n := by
  show j ∈ List.range' (i + 1) (n - 1 - i) ↔ _
  rw [List.mem_range'_1]
  omega

theorem bestVia_erase_of_le (w : Nat → Nat → ℝ) {alive : List Nat}
    (hnd : alive.Nodup) {istar j : Nat} (hj : j ≤ istar) :
    bestVia w (alive.erase istar) j = bestVia w alive j := by
  unfold bestVia
  by_cases h0 : j = 0
  · rw [if_pos h0, if_pos h0]
  · rw [if_neg h0, if_neg h0]
    congr 1
    apply Finset.filter_congr
    intro x hx
    have hxj : x < j := Finset.mem_range.mp hx
    have hne : x ≠ istar := by omega
    rw [List.Nodup.mem_erase_iff hnd]
    simp [hne]

theorem bestVia_erase_of_gt (w : Nat → Nat → ℝ) {alive : List Nat}
    (hnd : alive.Nodup) {istar j : Nat} (hmem : istar ∈ alive)
    (hj : istar < j) :
    bestVia w (alive.erase istar) j =
      min ((dagDist w istar + w istar j : ℝ) : WithTop ℝ) (bestVia w alive j) := by
  have h0 : j ≠ 0 := by omega
  unfold bestVia
  rw [if_neg h0, if_neg h0]
  have hins : (Finset.range j).filter (fun i => i ∉ alive.erase istar) =
      insert istar ((Finset.range j).filter (fun i => i ∉ alive)) := by
    ext x
    simp only [Finset.mem_filter, Finset.mem_range, Finset.mem_insert,
      List.Nodup.mem_erase_iff hnd]
    constructor
    · rintro ⟨hxj, hx⟩
      by_cases hxi : x = istar
      · exact Or.inl hxi
      · exact Or.inr ⟨hxj, fun hmem2 => hx ⟨hxi, hmem2⟩⟩
    · rintro (rfl | ⟨hxj, hx⟩)
      · exact ⟨hj, fun hip => hip.1 rfl⟩
      · exact ⟨hxj, fun hip => hx hip.2⟩
  rw [hins, Finset.inf_insert, inf_eq_min]

theorem bestVia_range (w : Nat → Nat → ℝ) {n j : Nat} (hj : j < n) :
    bestVia w (List.range n) j = initCost j := by
  unfold bestVia initCost
  by_cases h0 : j = 0
  · rw [if_pos h0, if_pos h0]
  · rw [if_neg h0, if_neg h0]
    have hemp : (Finset.range j).filter (fun i => i ∉ List.range n) = ∅ := by
      apply Finset.filter_eq_empty_iff.mpr
      intro x hx
      have : x < j := Finset.mem_range.mp hx
      exact fun hmem => hmem (List.mem_range.mpr (by omega))
    rw [hemp, Finset.inf_empty]

theorem pick_eq_dist {n : Nat} {w : Nat → Nat → ℝ}
    (Hw : ∀ i j, i < j → j < n → 0 ≤ w i j)
    {alive : List Nat} {c : Nat → WithTop ℝ}
    (hbound : ∀ x ∈ alive, x < n)
    (hinv : ∀ j ∈ alive, c j = bestVia w alive j)
    {istar : Nat} (hmem : istar ∈ alive)
    (hmin : ∀ j ∈ alive, c istar ≤ c j) :
    c istar = ((dagDist w istar : ℝ) : WithTop ℝ) := by
  have hle : ∀ j, j ∈ alive → c istar ≤ ((dagDist w j : ℝ) : WithTop ℝ) := by
    intro j
    induction j using Nat.strong_induction_on with
    | _ j ih =>
      intro hj
      cases j with
      | zero =>
        have hc0 : c 0 = 0 := by
          rw [hinv 0 hj]
          unfold bestVia
          rw [if_pos rfl]
        calc c istar ≤ c 0 := hmin 0 hj
          _ = ((dagDist w 0 : ℝ) : WithTop ℝ) := by
              rw [hc0, dagDist_zero]
              exact WithTop.coe_zero.symm
      | succ m =>
        obtain ⟨i0, hi0, he⟩ :=
          minUpTo_attained (fun i => dagDist w i + w i (m + 1)) m
        have hdd : dagDist w (m + 1) = dagDist w i0 + w i0 (m + 1) := by
          rw [dagDist_succ, he]
        by_cases hia : i0 ∈ alive
        · have h1 : c istar ≤ ((dagDist w i0 : ℝ) : WithTop ℝ) :=
            ih i0 (by omega) hia
          have h2 : (0 : ℝ) ≤ w i0 (m + 1) :=
            Hw i0 (m + 1) (by omega) (hbound _ hj)
          calc c istar ≤ ((dagDist w i0 : ℝ) : WithTop ℝ) := h1
            _ ≤ ((dagDist w i0 + w i0 (m + 1) : ℝ) : WithTop ℝ) := by
                exact_mod_cast le_add_of_nonneg_right h2
            _ = ((dagDist w (m + 1) : ℝ) : WithTop ℝ) := by rw [hdd]
        · have hm1 : (m + 1) ≠ 0 := Nat.succ_ne_zero m
          have hmemf : i0 ∈ (Finset.range (m + 1)).filter
              (fun i => i ∉ alive) := by
            rw [Finset.mem_filter, Finset.mem_range]
            exact ⟨by omega, hia⟩
          have hinf : bestVia w alive (m + 1) ≤
              ((dagDist w i0 + w i0 (m + 1) : ℝ) : WithTop ℝ) := by
            unfold bestVia
            rw [if_neg hm1]
            exact Finset.inf_le hmemf
          calc c istar ≤ c (m + 1) := hmin _ hj
            _ = bestVia w alive (m + 1) := hinv _ hj
            _ ≤ ((dagDist w i0 + w i0 (m + 1) : ℝ) : WithTop ℝ) := hinf
            _ = ((dagDist w (m + 1) : ℝ) : WithTop ℝ) := by rw [hdd]
  have hge : ((dagDist w istar : ℝ) : WithTop ℝ) ≤ c istar := by
    rw [hinv istar hmem]
    unfold bestVia
    by_cases h0 : istar = 0
    · subst h0
      rw [if_pos rfl, dagDist_zero]
      exact le_of_eq WithTop.coe_zero
    · rw [if_neg h0]
      apply Finset.le_inf
      intro i hi
      have hilt : i < istar :=
        Finset.mem_range.mp (Finset.mem_filter.mp hi).1
      obtain ⟨k, rfl⟩ : ∃ k, istar = k + 1 := ⟨istar - 1, by omega⟩
      have hstep := dagDist_le_step w (show i ≤ k by omega)
      exact_mod_cast hstep
  exact le_antisymm (hle istar hmem) hge

theorem ite_lt_eq_min (a b : WithTop ℝ) : (if a < b then a else b) = min a b := by
  rcases lt_or_ge a b with h | h
  · rw [if_pos h, min_eq_left (le_of_lt h)]
  · rw [if_neg (not_lt.mpr h), min_eq_right h]

theorem dLoop_dense (n : Nat) (w : Nat → Nat → ℝ)
    (Hw : ∀ i j, i < j → j < n → 0 ≤ w i j) :
    ∀ fuel (alive : List Nat) (c : Nat → WithTop ℝ),
      alive.Nodup → (∀ x ∈ alive, x < n) → (n - 1) ∈ alive →
      (∀ j ∈ alive, c j = bestVia w alive j) →
      ∀ r k, dLoop (denseE n w) fuel alive c = (some r, k) →
        r = ((dagDist w (n - 1) : ℝ) : WithTop ℝ) := by
  intro fuel
  induction fuel with
  | zero =>
    intro alive c _ _ _ _ r k h
    simp only [dLoop, Prod.mk.injEq] at h
    exact absurd h.1 (by simp)
  | succ fuel ih =>
    intro alive c hnd hbound hgoal hinv r k h
    cases alive with
    | nil => exact absurd hgoal (List.not_mem_nil _)
    | cons a as =>
      simp only [dLoop] at h
      set istar := pickMin c (a :: as) with histar
      have hmem : istar ∈ a :: as := pickMin_mem c (List.cons_ne_nil a as)
      have hmin : ∀ j ∈ a :: as, c istar ≤ c j := pickMin_le c
      have hcval : c istar = ((dagDist w istar : ℝ) : WithTop ℝ) :=
        pick_eq_dist Hw hbound hinv hmem hmin
      by_cases hemp : (a :: as).erase istar = []
      · rw [if_pos hemp] at h
        have hlen : as.length = 0 := by
          have h2 := List.length_erase_of_mem hmem
          rw [hemp] at h2
          simp at h2
          omega
        have hsingle : a :: as = [a] := by
          cases as with
          | nil => rfl
          | cons b bs => simp at hlen
        have hia : istar = a := by
          rw [hsingle] at hmem
          exact List.mem_singleton.mp hmem
        have hga : n - 1 = a := by
          rw [hsingle] at hgoal
          exact List.mem_singleton.mp hgoal
        have hr : some (c istar) = some r := congrArg Prod.fst h
        have : c istar = r := Option.some.inj hr
        rw [← this, hcval, hia, ← hga]
      · rw [if_neg hemp] at h
        by_cases hkey : istar ∈ (denseE n w).keys
        · rw [if_pos hkey] at h
          have hlt : istar < n - 1 := List.mem_range.mp hkey
          set alive2 := (a :: as).erase istar with halive2
          set c2 := relax (denseE n w) istar alive2 c with hc2
          have hnd2 : alive2.Nodup := List.Nodup.erase istar hnd
          have hbound2 : ∀ x ∈ alive2, x < n :=
            fun x hx => hbound x (List.mem_of_mem_erase hx)
          have hgoal2 : (n - 1) ∈ alive2 :=
            (List.mem_erase_of_ne (by omega)).mpr hgoal
          have hinv2 : ∀ j ∈ alive2, c2 j = bestVia w alive2 j := by
            intro j hj
            have hjold : j ∈ a :: as := List.mem_of_mem_erase hj
            have hjne : j ≠ istar := by
              intro hcon
              rw [hcon] at hj
              exact (List.Nodup.mem_erase_iff hnd).mp hj |>.1 rfl
            rcases Nat.lt_or_ge istar j with hij | hij
            · have hsucc : j ∈ (denseE n w).succ istar :=
                (mem_succ_denseE n w hlt).mpr ⟨hij, hbound2 j hj⟩
              have hcond : (j ∈ (denseE n w).succ istar ∧ j ∈ alive2 ∧
                  c istar + ((denseE n w).w istar j : WithTop ℝ) < c j) ↔
                  (c istar + ((denseE n w).w istar j : WithTop ℝ) < c j) := by
                constructor
                · exact fun hx => hx.2.2
                · exact fun hx => ⟨hsucc, hj, hx⟩
              show (if _ then _ else _) = _
              rw [if_congr hcond rfl rfl, ite_lt_eq_min,
                bestVia_erase_of_gt w hnd hmem hij, hinv j hjold]
              congr 1
              rw [hcval]
              show ((dagDist w istar : ℝ) : WithTop ℝ) + ((w istar j : ℝ) : WithTop ℝ) = _
              exact_mod_cast rfl
            · have hnsucc : j ∉ (denseE n w).succ istar := by
                intro hcon
                have : istar + 1 ≤ j := (List.mem_range'_1.mp hcon).1
                omega
              have hcond : ¬(j ∈ (denseE n w).succ istar ∧ j ∈ alive2 ∧
                  c istar + ((denseE n w).w istar j : WithTop ℝ) < c j) := by
                intro hcon
                exact hnsucc hcon.1
              show (if _ then _ else _) = _
              rw [if_neg hcond, hinv j hjold,
                bestVia_erase_of_le w hnd (by omega : j ≤ istar)]
          have h1 : (dLoop (denseE n w) fuel alive2 c2).1 = some r := by
            have := congrArg Prod.fst h
            exact this
          exact ih alive2 c2 hnd2 hbound2 hgoal2 hinv2 r
            (dLoop (denseE n w) fuel alive2 c2).2 (by rw [← h1])
        · rw [if_neg hkey] at h
          have : (none : Option (WithTop ℝ)) = some r := congrArg Prod.fst h
          exact absurd this (by simp)

theorem foldr_max_shift : ∀ (l : List Nat) (b : Nat),
    l.foldr max b = max b (l.foldr max 0) := by
  intro l
  induction l with
  | nil => intro b; simp
  | cons a l ih =>
    intro b
    simp only [List.foldr_cons]
    rw [ih b, max_left_comm]

theorem foldr_max_range : ∀ m, (List.range (m + 1)).foldr max 0 = m := by
  intro m
  induction m with
  | zero => rfl
  | succ m ih =>
    rw [List.range_succ, List.foldr_append]
    show (List.range (m + 1)).foldr max (max (m + 1) 0) = m + 1
    rw [foldr_max_shift, ih, Nat.max_zero]
    exact max_eq_left (by omega)

theorem dNodes_denseE (m : Nat) (w : Nat → Nat → ℝ) :
    dNodes (denseE (m + 2) w) = List.range (m + 2) := by
  show List.range (m + 1) ++ [(List.range (m + 1)).foldr max 0 + 1] = _
  rw [foldr_max_range, ← List.range_succ]

theorem dijkstra_denseE {n : Nat} {w : Nat → Nat → ℝ}
    (Hw : ∀ i j, i < j → j < n → 0 ≤ w i j) {r : WithTop ℝ}
    (h : dijkstra (denseE n w) = some r) :
    r = ((dagDist w (n - 1) : ℝ) : WithTop ℝ) := by
  rcases Nat.lt_or_ge n 2 with hn | hn
  · exfalso
    have hkeys : (denseE n w).keys = [] := by
      show List.range (n - 1) = []
      have hz : n - 1 = 0 := by omega
      rw [hz]
      rfl
    unfold dijkstra dijkstraRun at h
    rw [if_pos hkeys] at h
    exact absurd h (by simp)
  · obtain ⟨m, rfl⟩ : ∃ m, n = m + 2 := ⟨n - 2, by omega⟩
    have hne : (denseE (m + 2) w).keys ≠ [] := by
      show List.range (m + 1) ≠ []
      simp [List.range_eq_nil]
    have h0 : 0 ∈ (denseE (m + 2) w).keys := by
      show 0 ∈ List.range (m + 1)
      exact List.mem_range.mpr (by omega)
    unfold dijkstra dijkstraRun at h
    rw [if_neg hne, if_pos h0, dNodes_denseE] at h
    have hlen : (List.range (m + 2)).length = m + 2 := List.length_range _
    refine dLoop_dense (m + 2) w Hw (List.range (m + 2)).length
      (List.range (m + 2)) initCost (List.nodup_range _)
      (fun x hx => List.mem_range.mp hx)
      (List.mem_range.mpr (by omega))
      (fun j hj => (bestVia_range w (List.mem_range.mp hj)).symm)
      r (dLoop (denseE (m + 2) w) (List.range (m + 2)).length
        (List.range (m + 2)) initCost).2 (by rw [← h])

theorem dLoop_count_le (E : EdgeDict) :
    ∀ fuel (alive : List Nat) c, (dLoop E fuel alive c).2 ≤ fuel := by
  intro fuel
  induction fuel with
  | zero => intro alive c; exact le_of_eq rfl
  | succ fuel ih =>
    intro alive c
    cases alive with
    | nil => exact Nat.zero_le _
    | cons a as =>
      simp only [dLoop]
      by_cases hemp : (a :: as).erase (pickMin c (a :: as)) = []
      · rw [if_pos hemp]
        exact Nat.succ_le_succ (Nat.zero_le fuel)
      · rw [if_neg hemp]
        by_cases hkey : pickMin c (a :: as) ∈ E.keys
        · rw [if_pos hkey]
          exact Nat.succ_le_succ (ih _ _)
        · rw [if_neg hkey]
          exact Nat.succ_le_succ (Nat.zero_le fuel)

theorem dLoop_count_eq (E : EdgeDict) :
    ∀ fuel (alive : List Nat) c, alive.length = fuel →
      (dLoop E fuel alive c).1.isSome → (dLoop E fuel alive c).2 = fuel := by
  intro fuel
  induction fuel with
  | zero =>
    intro alive c _ hs
    exact absurd hs (by rw [show dLoop E 0 alive c = (none, 0) from rfl]; simp)
  | succ fuel ih =>
    intro alive c hlen hs
    cases alive with
    | nil => simp at hlen
    | cons a as =>
      have hmem : pickMin c (a :: as) ∈ a :: as :=
        pickMin_mem c (List.cons_ne_nil a as)
      have hlen2 : ((a :: as).erase (pickMin c (a :: as))).length = fuel := by
        rw [List.length_erase_of_mem hmem]
        simp at hlen ⊢
        omega
      simp only [dLoop] at hs ⊢
      by_cases hemp : (a :: as).erase (pickMin c (a :: as)) = []
      · rw [if_pos hemp]
        rw [hemp] at hlen2
        simp at hlen2
        simp [← hlen2]
      · rw [if_neg hemp] at hs ⊢
        by_cases hkey : pickMin c (a :: as) ∈ E.keys
        · rw [if_pos hkey] at hs ⊢
          have := ih _ (relax E (pickMin c (a :: as))
            ((a :: as).erase (pickMin c (a :: as))) c) hlen2 hs
          simp [this]
        · rw [if_neg hkey] at hs
          exact absurd hs (by simp)

theorem list_range_map_sum (g : Nat → ℝ) :
    ∀ n, ((List.range n).map g).sum = ∑ i in Finset.range n, g i := by
  intro n
  induction n with
  | zero => rfl
  | succ n ih =>
    rw [List.range_succ, List.map_append, List.sum_append,
      Finset.sum_range_succ, ih]
    simp

theorem skippingCost_eq (costs : List ℝ) (j k : Nat) :
    skippingCost costs j k = ∑ l in Finset.Ioo j k, costs.getD (l - 1) 0 := by
  unfold skippingCost skippedWaypoints
  rw [List.range'_eq_map_range, List.map_map, list_range_map_sum]
  rw [← Nat.Ico_succ_left, Finset.sum_Ico_eq_sum_range]
  rfl

theorem getD_nonneg {costs : List ℝ} (hc : ∀ x ∈ costs, 0 ≤ x) (m : Nat) :
    0 ≤ costs.getD m 0 := by
  rcases Nat.lt_or_ge m costs.length with h | h
  · rw [List.getD_eq_getElem costs 0 h]
    exact hc _ (List.getElem_mem h)
  · rw [List.getD_eq_default costs 0 h]

theorem skippingCost_nonneg {costs : List ℝ} (hc : ∀ x ∈ costs, 0 ≤ x)
    (j k : Nat) : 0 ≤ skippingCost costs j k := by
  apply List.sum_nonneg
  intro x hx
  obtain ⟨l, _, rfl⟩ := List.mem_map.mp hx
  exact getD_nonneg hc _

theorem edgeWeight_nonneg {wl : List (ℝ × ℝ)} {costs : List ℝ} {v d : ℝ}
    (hv : 0 < v) (hd : 0 ≤ d) (hc : ∀ x ∈ costs, 0 ≤ x) (j k : Nat) :
    0 ≤ edgeWeight wl costs v d j k := by
  unfold edgeWeight travelCost
  have h1 : 0 ≤ eucDist (wl.getD j (0, 0)) (wl.getD k (0, 0)) / v :=
    div_nonneg (Real.sqrt_nonneg _) (le_of_lt hv)
  have h2 := skippingCost_nonneg hc j k
  linarith

/-- C2: for every augmented waypoint list, penalty list, velocity and dwell
time, and every pair of indices i < k < length, the edge weight built for
(i,k) equals the Euclidean distance between waypoints i and k divided by the
velocity, plus the dwell time charged exactly once, plus the sum of the skip
penalties of the interior waypoints strictly between i and k; when k = i+1
the skipping term is zero, so the edge is direct travel plus one dwell. -/
theorem C2_edge_weight_formula (wl : List (ℝ × ℝ)) (costs : List ℝ) (v d : ℝ)
    {i k : Nat} (hik : i < k) (hk : k < wl.length) :
    (buildGraph wl costs v d).w i k =
      eucDist (wl.get ⟨i, lt_trans hik hk⟩) (wl.get ⟨k, hk⟩) / v + d +
        (∑ l in Finset.Ioo i k, costs.getD (l - 1) 0) ∧
    (k = i + 1 → (∑ l in Finset.Ioo i k, costs.getD (l - 1) 0) = 0) := by
  constructor
  · show edgeWeight wl costs v d i k = _
    unfold edgeWeight travelCost
    rw [skippingCost_eq, List.getD_eq_getElem wl (0, 0) (lt_trans hik hk),
      List.getD_eq_getElem wl (0, 0) hk]
    rfl
  · rintro rfl
    have hemp : Finset.Ioo i (i + 1) = ∅ := by
      ext x
      simp only [Finset.mem_Ioo, Finset.not_mem_empty, iff_false]
      omega
    rw [hemp, Finset.sum_empty]

/-- Witness for C2 at a concrete three-waypoint test case. -/
theorem C2_edge_weight_formula_witness :
    (0 < 2 ∧ 2 < ([((0:ℝ), (0:ℝ)), (3, 0), (1, 0)]).length) ∧
    ((buildGraph [((0:ℝ), (0:ℝ)), (3, 0), (1, 0)] [(5:ℝ)] 1 0).w 0 2 =
      eucDist (([((0:ℝ), (0:ℝ)), (3, 0), (1, 0)]).get ⟨0, by simp⟩)
        (([((0:ℝ), (0:ℝ)), (3, 0), (1, 0)]).get ⟨2, by simp⟩) / 1 + 0 +
        (∑ l in Finset.Ioo 0 2, ([(5:ℝ)]).getD (l - 1) 0) ∧
     (2 = 0 + 1 → (∑ l in Finset.Ioo 0 2, ([(5:ℝ)]).getD (l - 1) 0) = 0)) :=
  ⟨⟨by decide, by simp⟩,
    C2_edge_weight_formula [((0:ℝ), (0:ℝ)), (3, 0), (1, 0)] [(5:ℝ)] 1 0
      (by decide) (by simp)⟩

/-- C3: the built cost graph contains an edge (i,j) exactly for the pairs
with i < j ≤ N+1 (strict forward, fully connected), and given velocity > 0,
dwell time ≥ 0 and penalties ≥ 0 every edge weight is non-negative. -/
theorem C3_graph_shape_nonneg (wl : List (ℝ × ℝ)) (costs : List ℝ) (v d : ℝ)
    (hv : 0 < v) (hd : 0 ≤ d) (hc : ∀ x ∈ costs, 0 ≤ x) :
    (∀ i j, hasEdge (buildGraph wl costs v d) i j ↔ i < j ∧ j < wl.length) ∧
    (∀ i j, hasEdge (buildGraph wl costs v d) i j →
      0 ≤ (buildGraph wl costs v d).w i j) := by
  constructor
  · intro i j
    show i ∈ List.range (wl.length - 1) ∧
      j ∈ List.range' (i + 1) (wl.length - 1 - i) ↔ _
    rw [List.mem_range, List.mem_range'_1]
    omega
  · intro i j _
    exact edgeWeight_nonneg hv hd hc i j

/-- Witness for C3 at a concrete two-waypoint test case. -/
theorem C3_graph_shape_nonneg_witness :
    ((0:ℝ) < 1 ∧ (0:ℝ) ≤ 0 ∧ ∀ x ∈ ([] : List ℝ), (0:ℝ) ≤ x) ∧
    ((∀ i j, hasEdge (buildGraph [((0:ℝ), (0:ℝ)), (1, 0)] [] 1 0) i j ↔
        i < j ∧ j < ([((0:ℝ), (0:ℝ)), (1, 0)]).length) ∧
     (∀ i j, hasEdge (buildGraph [((0:ℝ), (0:ℝ)), (1, 0)] [] 1 0) i j →
        0 ≤ (buildGraph [((0:ℝ), (0:ℝ)), (1, 0)] [] 1 0).w i j)) :=
  ⟨⟨zero_lt_one, le_refl 0, by simp⟩,
    C3_graph_shape_nonneg [((0:ℝ), (0:ℝ)), (1, 0)] [] 1 0 zero_lt_one
      (le_refl 0) (by simp)⟩

/-- C7: for a test case with N interior waypoints (penalty list of length
N = n - 2) every skipped index l generated while building an edge (i,k)
satisfies 1 ≤ l ≤ N, the penalty lookup at position l - 1 is in bounds
(lookup succeeds), and the charged value is the list entry at l - 1, i.e.
the penalty of the l-th interior waypoint. -/
theorem C7_penalty_indexing (costs : List ℝ) (n : Nat)
    (hlen : costs.length = n - 2) {i k : Nat} (hik : i < k) (hk : k < n) :
    ∀ l ∈ skippedWaypoints i k,
      (1 ≤ l ∧ l ≤ costs.length) ∧
      costs[l - 1]? = some (costs.getD (l - 1) 0) := by
  intro l hl
  rw [skippedWaypoints, List.mem_range'_1] at hl
  have hb : 1 ≤ l ∧ l ≤ costs.length := by omega
  refine ⟨hb, ?_⟩
  have hlt : l - 1 < costs.length := by omega
  rw [List.getD_eq_getElem costs 0 hlt, List.getElem?_eq_getElem hlt]

/-- Witness for C7 at a concrete test case with two interior waypoints. -/
theorem C7_penalty_indexing_witness :
    (([(5:ℝ), 6]).length = 4 - 2 ∧ 0 < 3 ∧ 3 < 4) ∧
    (∀ l ∈ skippedWaypoints 0 3,
      (1 ≤ l ∧ l ≤ ([(5:ℝ), 6]).length) ∧
      ([(5:ℝ), 6])[l - 1]? = some (([(5:ℝ), 6]).getD (l - 1) 0)) :=
  ⟨⟨by simp, by decide, by decide⟩,
    C7_penalty_indexing [(5:ℝ), 6] 4 (by simp) (by decide) (by decide)⟩

/-- C10: the per-test-case results of minimizePathCost are a pure function
of that test case's own inputs: entry i of the output is exactly the
single-case computation on waypoint list i and penalty list i, and it is
unchanged if every other test case's data is replaced arbitrarily (no
global or cross-test-case state). -/
theorem C10_purity (wpl : List (List (ℝ × ℝ))) (cl : List (List ℝ)) (v d : ℝ)
    {i : Nat} (hi : i < wpl.length) :
    (minimizePathCost wpl cl v d).get? i =
      some (minimizePathCostCase (wpl.getD i []) (cl.getD i []) v d) ∧
    ∀ (wpl' : List (List (ℝ × ℝ))) (cl' : List (List ℝ)),
      i < wpl'.length → wpl'.getD i [] = wpl.getD i [] →
      cl'.getD i [] = cl.getD i [] →
      (minimizePathCost wpl' cl' v d).get? i =
        (minimizePathCost wpl cl v d).get? i := by
  have hbase : ∀ (a : List (List (ℝ × ℝ))) (b : List (List ℝ)),
      i < a.length → (minimizePathCost a b v d).get? i =
        some (minimizePathCostCase (a.getD i []) (b.getD i []) v d) := by
    intro a b ha
    unfold minimizePathCost
    rw [List.get?_map, List.get?_range ha]
    rfl
  refine ⟨hbase wpl cl hi, ?_⟩
  intro wpl' cl' hi' hw hc
  rw [hbase wpl' cl' hi', hbase wpl cl hi, hw, hc]

/-- Witness for C10 at a concrete single-test-case input. -/
theorem C10_purity_witness :
    (0 < ([[((0:ℝ), (0:ℝ)), (1, 0)]]).length) ∧
    ((minimizePathCost [[((0:ℝ), (0:ℝ)), (1, 0)]] [[]] 1 0).get? 0 =
      some (minimizePathCostCase (([[((0:ℝ), (0:ℝ)), (1, 0)]]).getD 0 [])
        (([[]] : List (List ℝ)).getD 0 []) 1 0) ∧
     ∀ (wpl' : List (List (ℝ × ℝ))) (cl' : List (List ℝ)),
       0 < wpl'.length →
       wpl'.getD 0 [] = ([[((0:ℝ), (0:ℝ)), (1, 0)]]).getD 0 [] →
       cl'.getD 0 [] = ([[]] : List (List ℝ)).getD 0 [] →
       (minimizePathCost wpl' cl' 1 0).get? 0 =
         (minimizePathCost [[((0:ℝ), (0:ℝ)), (1, 0)]] [[]] 1 0).get? 0) :=
  ⟨by simp, C10_purity [[((0:ℝ), (0:ℝ)), (1, 0)]] [[]] 1 0 (by simp)⟩

theorem eucDist_eval {p q : ℝ × ℝ} {b : ℝ} (hb : 0 ≤ b)
    (h : (q.1 - p.1) ^ 2 + (q.2 - p.2) ^ 2 = b ^ 2) : eucDist p q = b := by
  unfold eucDist
  rw [h, Real.sqrt_sq hb]

theorem minimizeCase_some_len {wl : List (ℝ × ℝ)} {costs : List ℝ} {v d : ℝ}
    {r : WithTop ℝ} (h : minimizePathCostCase wl costs v d = some r) :
    2 ≤ wl.length := by
  by_contra hlen
  have hkeys : (buildGraph wl costs v d).keys = [] := by
    show List.range (wl.length - 1) = []
    have hz : wl.length - 1 = 0 := by omega
    rw [hz]
    rfl
  unfold minimizePathCostCase dijkstra dijkstraRun at h
  rw [if_pos hkeys] at h
  exact absurd h (by simp)

theorem dijkstra_buildGraph {wl : List (ℝ × ℝ)} {costs : List ℝ} {v d : ℝ}
    (hv : 0 < v) (hd : 0 ≤ d) (hc : ∀ x ∈ costs, 0 ≤ x) {r : WithTop ℝ}
    (h : minimizePathCostCase wl costs v d = some r) :
    r = ((dagDist (edgeWeight wl costs v d) (wl.length - 1) : ℝ) : WithTop ℝ) :=
  dijkstra_denseE (fun i j _ _ => edgeWeight_nonneg hv hd hc i j) h

/-- C4 (amended): whenever the solver returns a value for a valid input, that
value is non-negative, at most the cost of the visit-all path (sum of all
consecutive edges i → i+1), and at most the weight of the direct edge from
node 0 to the goal node. -/
theorem C4_min_cost_bounds (wl : List (ℝ × ℝ)) (costs : List ℝ) (v d : ℝ)
    (hv : 0 < v) (hd : 0 ≤ d) (hc : ∀ x ∈ costs, 0 ≤ x) (r : WithTop ℝ)
    (h : minimizePathCostCase wl costs v d = some r) :
    0 ≤ r ∧
    r ≤ ((∑ i in Finset.range (wl.length - 1),
      edgeWeight wl costs v d i (i + 1) : ℝ) : WithTop ℝ) ∧
    r ≤ ((edgeWeight wl costs v d 0 (wl.length - 1) : ℝ) : WithTop ℝ) := by
  have hn : 2 ≤ wl.length := minimizeCase_some_len h
  have hr := dijkstra_buildGraph hv hd hc h
  have hnn : ∀ i j, i < j → j < wl.length → 0 ≤ edgeWeight wl costs v d i j :=
    fun i j _ _ => edgeWeight_nonneg hv hd hc i j
  refine ⟨?_, ?_, ?_⟩
  · rw [hr]
    have h0 : (0:ℝ) ≤ dagDist (edgeWeight wl costs v d) (wl.length - 1) :=
      dagDist_nonneg _ wl.length hnn _ (by omega)
    exact_mod_cast h0
  · rw [hr]
    have hle := dagDist_le_consec (edgeWeight wl costs v d) (wl.length - 1)
    exact_mod_cast hle
  · rw [hr]
    have hle := dagDist_le_direct (edgeWeight wl costs v d) (wl.length - 1)
      (by omega)
    exact_mod_cast hle

theorem getD_set_le {costs : List ℝ} {p : Nat} {q : ℝ} (hp : p < costs.length)
    (hq : costs.get ⟨p, hp⟩ ≤ q) (m : Nat) :
    costs.getD m 0 ≤ (costs.set p q).getD m 0 := by
  rcases Nat.lt_or_ge m costs.length with hm | hm
  · have hm2 : m < (costs.set p q).length := by
      rw [List.length_set]
      exact hm
    rw [List.getD_eq_getElem costs 0 hm, List.getD_eq_getElem _ 0 hm2]
    by_cases hmp : m = p
    · subst hmp
      rw [List.getElem_set_self]
      exact hq
    · rw [List.getElem_set_ne (fun hip => hmp (hip.symm))]
  · have hm2 : (costs.set p q).length ≤ m := by
      rw [List.length_set]
      exact hm
    rw [List.getD_eq_default costs 0 hm, List.getD_eq_default _ 0 hm2]

theorem edgeWeight_set_le {wl : List (ℝ × ℝ)} {costs : List ℝ} {v d : ℝ}
    {p : Nat} {q : ℝ} (hp : p < costs.length) (hq : costs.get ⟨p, hp⟩ ≤ q)
    (i j : Nat) :
    edgeWeight wl costs v d i j ≤ edgeWeight wl (costs.set p q) v d i j := by
  unfold edgeWeight
  apply add_le_add_left
  unfold skippingCost
  apply List.sum_le_sum
  intro l _
  exact getD_set_le hp hq (l - 1)

/-- C6 (amended): whenever the solver returns a value both before and after
increasing the skip penalty of a single interior waypoint (all else fixed),
the value never decreases. -/
theorem C6_penalty_monotone (wl : List (ℝ × ℝ)) (costs : List ℝ) (v d : ℝ)
    (hv : 0 < v) (hd : 0 ≤ d) (hc : ∀ x ∈ costs, 0 ≤ x)
    (p : Nat) (q : ℝ) (hp : p < costs.length) (hq : costs.get ⟨p, hp⟩ ≤ q)
    (r r2 : WithTop ℝ)
    (h : minimizePathCostCase wl costs v d = some r)
    (h2 : minimizePathCostCase wl (costs.set p q) v d = some r2) :
    r ≤ r2 := by
  have hc2 : ∀ x ∈ costs.set p q, 0 ≤ x := by
    intro x hx
    rcases List.mem_or_eq_of_mem_set hx with hx2 | rfl
    · exact hc x hx2
    · exact le_trans (hc _ (List.get_mem costs _ hp)) hq
  have hr := dijkstra_buildGraph hv hd hc h
  have hr2 := dijkstra_buildGraph hv hd hc2 h2
  rw [hr, hr2]
  have hmono := dagDist_mono (edgeWeight wl costs v d)
    (edgeWeight wl (costs.set p q) v d)
    (fun i j _ => edgeWeight_set_le hp hq i j) (wl.length - 1)
  exact_mod_cast hmono

/-- C8 (amended): on every graph satisfying the builder contract (dense
forward shape with non-negative weights), a value returned by the solver is
never the infinite cost: the unreachable-goal situation does not arise. -/
theorem C8_goal_finite (n : Nat) (w : Nat → Nat → ℝ)
    (Hw : ∀ i j, i < j → j < n → 0 ≤ w i j) (r : WithTop ℝ)
    (h : dijkstra (denseE n w) = some r) : r ≠ ⊤ := by
  rw [dijkstra_denseE Hw h]
  exact WithTop.coe_ne_top

/-- C9 (amended): on every input dict the selection loop performs at most as
many extractions as there are nodes, and exactly that many whenever the
solver returns a value (an uncaught exception cuts the loop short). -/
theorem C9_extraction_count (E : EdgeDict) :
    (dijkstraRun E).2 ≤ (dNodes E).length ∧
    ((dijkstraRun E).1.isSome → (dijkstraRun E).2 = (dNodes E).length) := by
  unfold dijkstraRun
  by_cases h1 : E.keys = []
  · rw [if_pos h1]
    exact ⟨Nat.zero_le _, fun hs => absurd hs (by simp)⟩
  · rw [if_neg h1]
    by_cases h2 : 0 ∈ E.keys
    · rw [if_pos h2]
      exact ⟨dLoop_count_le E _ _ _, dLoop_count_eq E _ _ _ rfl⟩
    · rw [if_neg h2]
      exact ⟨Nat.zero_le _, fun hs => absurd hs (by simp)⟩

theorem dagDist_one (w : Nat → Nat → ℝ) : dagDist w 1 = w 0 1 := by
  have h := dagDist_succ w 0
  rw [show (0 + 1 : Nat) = 1 from rfl] at h
  rw [h]
  show dagDist w 0 + w 0 1 = w 0 1
  rw [dagDist_zero, zero_add]

theorem dagDist_two (w : Nat → Nat → ℝ) :
    dagDist w 2 = min (w 0 2) (w 0 1 + w 1 2) := by
  have h := dagDist_succ w 1
  rw [show (1 + 1 : Nat) = 2 from rfl] at h
  rw [h]
  show min (dagDist w 0 + w 0 2) (dagDist w 1 + w 1 2) = _
  rw [dagDist_zero, dagDist_one, zero_add]

/-- C1 (code bug): the test case with augmented waypoints (2,0), (7,0),
(3,0), penalty 1, velocity 1 and dwell time 0 is a valid builder input whose
minimum strictly-increasing path weight to the goal is 2 (take the direct
edge 0 → 2 of weight 2 = 1 + penalty 1), yet dijkstra does not return it:
the goal node is extracted second (its running cost 2 undercuts node 1's
cost 5), `edgeCost[2]` does not exist, and the uncaught KeyError is
modelled by the result `none`. -/
theorem C1_dijkstra_crash :
    minimizePathCostCase [((2:ℝ), (0:ℝ)), (7, 0), (3, 0)] [1] 1 0 = none ∧
    dagDist (edgeWeight [((2:ℝ), (0:ℝ)), (7, 0), (3, 0)] [1] 1 0) 2 = 2 := by
  have hw01 : edgeWeight [((2:ℝ), (0:ℝ)), (7, 0), (3, 0)] [1] 1 0 0 1 = 5 := by
    unfold edgeWeight travelCost skippingCost skippedWaypoints
    rw [eucDist_eval (by norm_num : (0:ℝ) ≤ 5) (by norm_num)]
    norm_num
  have hw02 : edgeWeight [((2:ℝ), (0:ℝ)), (7, 0), (3, 0)] [1] 1 0 0 2 = 2 := by
    unfold edgeWeight travelCost skippingCost skippedWaypoints
    rw [eucDist_eval (by norm_num : (0:ℝ) ≤ 1) (by norm_num)]
    norm_num
  have hw12 : edgeWeight [((2:ℝ), (0:ℝ)), (7, 0), (3, 0)] [1] 1 0 1 2 = 4 := by
    unfold edgeWeight travelCost skippingCost skippedWaypoints
    rw [eucDist_eval (by norm_num : (0:ℝ) ≤ 4) (by norm_num)]
    norm_num
  refine ⟨?_, by rw [dagDist_two, hw01, hw02, hw12]; norm_num⟩
  show (dLoop (buildGraph [((2:ℝ), (0:ℝ)), (7, 0), (3, 0)] [1] 1 0) 3
    [0, 1, 2] initCost).1 = none
  simp only [buildGraph, denseE, List.length_cons, List.length_nil, dLoop,
    pickMin, relax, initCost, List.foldl_cons, List.foldl_nil]
  have ha : (5 : WithTop ℝ) < ⊤ := by exact_mod_cast WithTop.coe_lt_top (5:ℝ)
  have hb : (2 : WithTop ℝ) < ⊤ := by exact_mod_cast WithTop.coe_lt_top (2:ℝ)
  have hcc : (2 : WithTop ℝ) < (5 : WithTop ℝ) := by
    have h2 : ((2:ℝ) : WithTop ℝ) < ((5:ℝ) : WithTop ℝ) := by
      rw [WithTop.coe_lt_coe]
      norm_num
    exact_mod_cast h2
  norm_num [hw01, hw02, hw12, List.erase_cons_head, List.erase_cons_tail,
    dLoop, pickMin, relax, initCost, ha, hb, hcc]
  simp

/-- Counterexample for C4 as stated: the valid input with waypoints (2,0),
(6,0), (3,0), penalty 1, velocity 1, dwell 0 makes the solver raise a
KeyError (modelled `none`), so there is no computed minimum cost at all for
this valid input. -/
theorem C4_counterexample :
    minimizePathCostCase [((2:ℝ), (0:ℝ)), (6, 0), (3, 0)] [1] 1 0 = none := by
  have hw01 : edgeWeight [((2:ℝ), (0:ℝ)), (6, 0), (3, 0)] [1] 1 0 0 1 = 4 := by
    unfold edgeWeight travelCost skippingCost skippedWaypoints
    rw [eucDist_eval (by norm_num : (0:ℝ) ≤ 4) (by norm_num)]
    norm_num
  have hw02 : edgeWeight [((2:ℝ), (0:ℝ)), (6, 0), (3, 0)] [1] 1 0 0 2 = 2 := by
    unfold edgeWeight travelCost skippingCost skippedWaypoints
    rw [eucDist_eval (by norm_num : (0:ℝ) ≤ 1) (by norm_num)]
    norm_num
  have hw12 : edgeWeight [((2:ℝ), (0:ℝ)), (6, 0), (3, 0)] [1] 1 0 1 2 = 3 := by
    unfold edgeWeight travelCost skippingCost skippedWaypoints
    rw [eucDist_eval (by norm_num : (0:ℝ) ≤ 3) (by norm_num)]
    norm_num
  show (dLoop (buildGraph [((2:ℝ), (0:ℝ)), (6, 0), (3, 0)] [1] 1 0) 3
    [0, 1, 2] initCost).1 = none
  simp only [buildGraph, denseE, List.length_cons, List.length_nil, dLoop,
    pickMin, relax, initCost, List.foldl_cons, List.foldl_nil]
  have ha : (4 : WithTop ℝ) < ⊤ := by exact_mod_cast WithTop.coe_lt_top (4:ℝ)
  have hb : (2 : WithTop ℝ) < ⊤ := by exact_mod_cast WithTop.coe_lt_top (2:ℝ)
  have hcc : (2 : WithTop ℝ) < (4 : WithTop ℝ) := by
    have h2 : ((2:ℝ) : WithTop ℝ) < ((4:ℝ) : WithTop ℝ) := by
      rw [WithTop.coe_lt_coe]
      norm_num
    exact_mod_cast h2
  norm_num [hw01, hw02, hw12, List.erase_cons_head, List.erase_cons_tail,
    dLoop, pickMin, relax, initCost, ha, hb, hcc]
  simp

/-- Witness for C4 at a concrete completed run (waypoints (1,0), (4,0),
(5,0), penalty 0): the solver returns 4 and the three bounds hold. -/
theorem C4_min_cost_bounds_witness :
    ((0:ℝ) < 1 ∧ (0:ℝ) ≤ 0 ∧ (∀ x ∈ [(0:ℝ)], (0:ℝ) ≤ x) ∧
      minimizePathCostCase [((1:ℝ), (0:ℝ)), (4, 0), (5, 0)] [0] 1 0 =
        some (4 : WithTop ℝ)) ∧
    (0 ≤ (4 : WithTop ℝ) ∧
     (4 : WithTop ℝ) ≤ ((∑ i in Finset.range
        (([((1:ℝ), (0:ℝ)), (4, 0), (5, 0)]).length - 1),
        edgeWeight [((1:ℝ), (0:ℝ)), (4, 0), (5, 0)] [0] 1 0 i (i + 1) : ℝ) :
          WithTop ℝ) ∧
     (4 : WithTop ℝ) ≤ ((edgeWeight [((1:ℝ), (0:ℝ)), (4, 0), (5, 0)] [0] 1 0 0
        (([((1:ℝ), (0:ℝ)), (4, 0), (5, 0)]).length - 1) : ℝ) : WithTop ℝ)) := by
  have hw01 : edgeWeight [((1:ℝ), (0:ℝ)), (4, 0), (5, 0)] [0] 1 0 0 1 = 3 := by
    unfold edgeWeight travelCost skippingCost skippedWaypoints
    rw [eucDist_eval (by norm_num : (0:ℝ) ≤ 3) (by norm_num)]
    norm_num
  have hw02 : edgeWeight [((1:ℝ), (0:ℝ)), (4, 0), (5, 0)] [0] 1 0 0 2 = 4 := by
    unfold edgeWeight travelCost skippingCost skippedWaypoints
    rw [eucDist_eval (by norm_num : (0:ℝ) ≤ 4) (by norm_num)]
    norm_num
  have hw12 : edgeWeight [((1:ℝ), (0:ℝ)), (4, 0), (5, 0)] [0] 1 0 1 2 = 1 := by
    unfold edgeWeight travelCost skippingCost skippedWaypoints
    rw [eucDist_eval (by norm_num : (0:ℝ) ≤ 1) (by norm_num)]
    norm_num
  have hrun : minimizePathCostCase [((1:ℝ), (0:ℝ)), (4, 0), (5, 0)] [0] 1 0 =
      some (4 : WithTop ℝ) := by
    show (dLoop (buildGraph [((1:ℝ), (0:ℝ)), (4, 0), (5, 0)] [0] 1 0) 3
      [0, 1, 2] initCost).1 = some (4 : WithTop ℝ)
    simp only [buildGraph, denseE, List.length_cons, List.length_nil, dLoop,
      pickMin, relax, initCost, List.foldl_cons, List.foldl_nil]
    have ha : (3 : WithTop ℝ) < ⊤ := by
      exact_mod_cast WithTop.coe_lt_top (3:ℝ)
    have hb : (4 : WithTop ℝ) < ⊤ := by
      exact_mod_cast WithTop.coe_lt_top (4:ℝ)
    have hc1 : ¬ (4 : WithTop ℝ) < (3 : WithTop ℝ) := by
      have h2 : ¬ ((4:ℝ) : WithTop ℝ) < ((3:ℝ) : WithTop ℝ) := by
        rw [WithTop.coe_lt_coe]
        norm_num
      exact_mod_cast h2
    have hc2 : ¬ (3 : WithTop ℝ) + 1 < (4 : WithTop ℝ) := by
      have h2 : ¬ ((3:ℝ) : WithTop ℝ) + ((1:ℝ) : WithTop ℝ) <
          ((4:ℝ) : WithTop ℝ) := by
        rw [← WithTop.coe_add, WithTop.coe_lt_coe]
        norm_num
      exact_mod_cast h2
    norm_num [hw01, hw02, hw12, List.erase_cons_head, List.erase_cons_tail,
      dLoop, pickMin, relax, initCost, ha, hb, hc1, hc2]
    simp
  exact ⟨⟨zero_lt_one, le_refl 0, by simp, hrun⟩,
    C4_min_cost_bounds [((1:ℝ), (0:ℝ)), (4, 0), (5, 0)] [0] 1 0 zero_lt_one
      (le_refl 0) (by simp) (4 : WithTop ℝ) hrun⟩

/-- C5: for every test case with zero interior waypoints the solver returns
exactly the start-to-goal Euclidean distance divided by the velocity plus
one dwell time (no skip penalty); in particular with start (0,0), goal
(10,0), velocity 1 and dwell time 0 the result is 10. -/
theorem C5_zero_interior :
    (∀ (s g : ℝ × ℝ) (v d : ℝ),
      minimizePathCostCase [s, g] [] v d =
        some ((eucDist s g / v + d : ℝ) : WithTop ℝ)) ∧
    minimizePathCostCase [((0:ℝ), (0:ℝ)), (10, 0)] [] 1 0 =
      some ((10 : ℝ) : WithTop ℝ) := by
  have hgen : ∀ (s g : ℝ × ℝ) (v d : ℝ),
      minimizePathCostCase [s, g] [] v d =
        some ((eucDist s g / v + d : ℝ) : WithTop ℝ) := by
    intro s g v d
    have hw : edgeWeight [s, g] [] v d 0 1 = eucDist s g / v + d := by
      unfold edgeWeight travelCost skippingCost skippedWaypoints
      norm_num
    show (dLoop (buildGraph [s, g] [] v d) 2 [0, 1] initCost).1 =
      some ((eucDist s g / v + d : ℝ) : WithTop ℝ)
    simp only [buildGraph, denseE, List.length_cons, List.length_nil, dLoop,
      pickMin, relax, initCost, List.foldl_cons, List.foldl_nil]
    norm_num [hw, List.erase_cons_head, dLoop, pickMin, relax, initCost]
  refine ⟨hgen, ?_⟩
  rw [hgen]
  rw [eucDist_eval (by norm_num : (0:ℝ) ≤ 10) (by norm_num)]
  have h10 : (10:ℝ) / 1 + 0 = 10 := by norm_num
  rw [h10]

/-- Counterexample for C6 as stated: with waypoints (1,0), (6,0), (2,0),
velocity 1 and dwell 0, penalty 1 makes the solver raise a KeyError (no
computed cost), while the increased penalty 4 makes it return 5 — so "the
computed minimum cost" does not exist at every valid input and the stated
comparison cannot even be formed there. -/
theorem C6_counterexample :
    minimizePathCostCase [((1:ℝ), (0:ℝ)), (6, 0), (2, 0)] [1] 1 0 = none ∧
    minimizePathCostCase [((1:ℝ), (0:ℝ)), (6, 0), (2, 0)] [4] 1 0 =
      some (5 : WithTop ℝ) := by
  have hd01 : eucDist ((1:ℝ), (0:ℝ)) ((6:ℝ), (0:ℝ)) = 5 :=
    eucDist_eval (by norm_num) (by norm_num)
  have hd02 : eucDist ((1:ℝ), (0:ℝ)) ((2:ℝ), (0:ℝ)) = 1 :=
    eucDist_eval (by norm_num) (by norm_num)
  have hd12 : eucDist ((6:ℝ), (0:ℝ)) ((2:ℝ), (0:ℝ)) = 4 :=
    eucDist_eval (by norm_num) (by norm_num)
  constructor
  · have hw01 : edgeWeight [((1:ℝ), (0:ℝ)), (6, 0), (2, 0)] [1] 1 0 0 1 = 5 := by
      unfold edgeWeight travelCost skippingCost skippedWaypoints
      rw [show ([((1:ℝ), (0:ℝ)), (6, 0), (2, 0)]).getD 0 (0, 0) =
        ((1:ℝ), (0:ℝ)) from rfl]
      norm_num [hd01]
    have hw02 : edgeWeight [((1:ℝ), (0:ℝ)), (6, 0), (2, 0)] [1] 1 0 0 2 = 2 := by
      unfold edgeWeight travelCost skippingCost skippedWaypoints
      rw [show ([((1:ℝ), (0:ℝ)), (6, 0), (2, 0)]).getD 0 (0, 0) =
        ((1:ℝ), (0:ℝ)) from rfl]
      norm_num [hd02]
    have hw12 : edgeWeight [((1:ℝ), (0:ℝ)), (6, 0), (2, 0)] [1] 1 0 1 2 = 4 := by
      unfold edgeWeight travelCost skippingCost skippedWaypoints
      norm_num [hd12]
    show (dLoop (buildGraph [((1:ℝ), (0:ℝ)), (6, 0), (2, 0)] [1] 1 0) 3
      [0, 1, 2] initCost).1 = none
    simp only [buildGraph, denseE, List.length_cons, List.length_nil, dLoop,
      pickMin, relax, initCost, List.foldl_cons, List.foldl_nil]
    have ha : (5 : WithTop ℝ) < ⊤ := by
      exact_mod_cast WithTop.coe_lt_top (5:ℝ)
    have hb : (2 : WithTop ℝ) < ⊤ := by
      exact_mod_cast WithTop.coe_lt_top (2:ℝ)
    have hcc : (2 : WithTop ℝ) < (5 : WithTop ℝ) := by
      have h2 : ((2:ℝ) : WithTop ℝ) < ((5:ℝ) : WithTop ℝ) := by
        rw [WithTop.coe_lt_coe]
        norm_num
      exact_mod_cast h2
    norm_num [hw01, hw02, hw12, List.erase_cons_head, List.erase_cons_tail,
      dLoop, pickMin, relax, initCost, ha, hb, hcc]
    simp
  · have hw01 : edgeWeight [((1:ℝ), (0:ℝ)), (6, 0), (2, 0)] [4] 1 0 0 1 = 5 := by
      unfold edgeWeight travelCost skippingCost skippedWaypoints
      rw [show ([((1:ℝ), (0:ℝ)), (6, 0), (2, 0)]).getD 0 (0, 0) =
        ((1:ℝ), (0:ℝ)) from rfl]
      norm_num [hd01]
    have hw02 : edgeWeight [((1:ℝ), (0:ℝ)), (6, 0), (2, 0)] [4] 1 0 0 2 = 5 := by
      unfold edgeWeight travelCost skippingCost skippedWaypoints
      rw [show ([((1:ℝ), (0:ℝ)), (6, 0), (2, 0)]).getD 0 (0, 0) =
        ((1:ℝ), (0:ℝ)) from rfl]
      norm_num [hd02]
    have hw12 : edgeWeight [((1:ℝ), (0:ℝ)), (6, 0), (2, 0)] [4] 1 0 1 2 = 4 := by
      unfold edgeWeight travelCost skippingCost skippedWaypoints
      norm_num [hd12]
    show (dLoop (buildGraph [((1:ℝ), (0:ℝ)), (6, 0), (2, 0)] [4] 1 0) 3
      [0, 1, 2] initCost).1 = some (5 : WithTop ℝ)
    simp only [buildGraph, denseE, List.length_cons, List.length_nil, dLoop,
      pickMin, relax, initCost, List.foldl_cons, List.foldl_nil]
    have ha : (5 : WithTop ℝ) < ⊤ := by
      exact_mod_cast WithTop.coe_lt_top (5:ℝ)
    have hc1 : ¬ (5 : WithTop ℝ) + 4 < (5 : WithTop ℝ) := by
      have h2 : ¬ ((5:ℝ) : WithTop ℝ) + ((4:ℝ) : WithTop ℝ) <
          ((5:ℝ) : WithTop ℝ) := by
        rw [← WithTop.coe_add, WithTop.coe_lt_coe]
        norm_num
      exact_mod_cast h2
    have hc2 : (5 : WithTop ℝ) ≤ (9 : WithTop ℝ) := by
      have h2 : ((5:ℝ) : WithTop ℝ) ≤ ((9:ℝ) : WithTop ℝ) := by
        rw [WithTop.coe_le_coe]
        norm_num
      exact_mod_cast h2
    norm_num [hw01, hw02, hw12, List.erase_cons_head, List.erase_cons_tail,
      dLoop, pickMin, relax, initCost, ha, hc1, hc2]
    have hc3 : ¬ (9 : WithTop ℝ) < (5 : WithTop ℝ) := by
      have h2 : ¬ ((9:ℝ) : WithTop ℝ) < ((5:ℝ) : WithTop ℝ) := by
        rw [WithTop.coe_lt_coe]
        norm_num
      exact_mod_cast h2
    simp [hc3]

/-- Witness for C6 at a concrete pair of completed runs: waypoints (1,0),
(2,0), (3,0), penalty raised from 0 to 1; both runs return 2 and 2 ≤ 2. -/
theorem C6_penalty_monotone_witness :
    ((0:ℝ) < 1 ∧ (0:ℝ) ≤ 0 ∧ (∀ x ∈ [(0:ℝ)], (0:ℝ) ≤ x) ∧
      (0 < ([(0:ℝ)]).length) ∧
      minimizePathCostCase [((1:ℝ), (0:ℝ)), (2, 0), (3, 0)] [0] 1 0 =
        some (2 : WithTop ℝ) ∧
      minimizePathCostCase [((1:ℝ), (0:ℝ)), (2, 0), (3, 0)]
        (([(0:ℝ)]).set 0 1) 1 0 = some (2 : WithTop ℝ)) ∧
    (2 : WithTop ℝ) ≤ (2 : WithTop ℝ) := by
  have hd01 : eucDist ((1:ℝ), (0:ℝ)) ((2:ℝ), (0:ℝ)) = 1 :=
    eucDist_eval (by norm_num) (by norm_num)
  have hd02 : eucDist ((1:ℝ), (0:ℝ)) ((3:ℝ), (0:ℝ)) = 2 :=
    eucDist_eval (by norm_num) (by norm_num)
  have hd12 : eucDist ((2:ℝ), (0:ℝ)) ((3:ℝ), (0:ℝ)) = 1 :=
    eucDist_eval (by norm_num) (by norm_num)
  have h1top : (1 : WithTop ℝ) < ⊤ := by
    exact_mod_cast WithTop.coe_lt_top (1:ℝ)
  have h2top : (2 : WithTop ℝ) < ⊤ := by
    exact_mod_cast WithTop.coe_lt_top (2:ℝ)
  have h3top : (3 : WithTop ℝ) < ⊤ := by
    exact_mod_cast WithTop.coe_lt_top (3:ℝ)
  have hn21 : ¬ (2 : WithTop ℝ) < (1 : WithTop ℝ) := by
    have h2 : ¬ ((2:ℝ) : WithTop ℝ) < ((1:ℝ) : WithTop ℝ) := by
      rw [WithTop.coe_lt_coe]
      norm_num
    exact_mod_cast h2
  have hn31 : ¬ (3 : WithTop ℝ) < (1 : WithTop ℝ) := by
    have h2 : ¬ ((3:ℝ) : WithTop ℝ) < ((1:ℝ) : WithTop ℝ) := by
      rw [WithTop.coe_lt_coe]
      norm_num
    exact_mod_cast h2
  have h23 : (2 : WithTop ℝ) < (3 : WithTop ℝ) := by
    have h2 : ((2:ℝ) : WithTop ℝ) < ((3:ℝ) : WithTop ℝ) := by
      rw [WithTop.coe_lt_coe]
      norm_num
    exact_mod_cast h2
  have hrun1 : minimizePathCostCase [((1:ℝ), (0:ℝ)), (2, 0), (3, 0)] [0] 1 0 =
      some (2 : WithTop ℝ) := by
    have hw01 : edgeWeight [((1:ℝ), (0:ℝ)), (2, 0), (3, 0)] [0] 1 0 0 1 = 1 := by
      unfold edgeWeight travelCost skippingCost skippedWaypoints
      norm_num [hd01]
    have hw02 : edgeWeight [((1:ℝ), (0:ℝ)), (2, 0), (3, 0)] [0] 1 0 0 2 = 2 := by
      unfold edgeWeight travelCost skippingCost skippedWaypoints
      norm_num [hd02]
    have hw12 : edgeWeight [((1:ℝ), (0:ℝ)), (2, 0), (3, 0)] [0] 1 0 1 2 = 1 := by
      unfold edgeWeight travelCost skippingCost skippedWaypoints
      norm_num [hd12]
    show (dLoop (buildGraph [((1:ℝ), (0:ℝ)), (2, 0), (3, 0)] [0] 1 0) 3
      [0, 1, 2] initCost).1 = some (2 : WithTop ℝ)
    simp only [buildGraph, denseE, List.length_cons, List.length_nil, dLoop,
      pickMin, relax, initCost, List.foldl_cons, List.foldl_nil]
    norm_num [hw01, hw02, hw12, List.erase_cons_head, List.erase_cons_tail,
      dLoop, pickMin, relax, initCost, h1top, h2top, hn21]
    simp
  have hrun2 : minimizePathCostCase [((1:ℝ), (0:ℝ)), (2, 0), (3, 0)]
      (([(0:ℝ)]).set 0 1) 1 0 = some (2 : WithTop ℝ) := by
    rw [show (([(0:ℝ)]).set 0 1) = [(1:ℝ)] from rfl]
    have hw01 : edgeWeight [((1:ℝ), (0:ℝ)), (2, 0), (3, 0)] [1] 1 0 0 1 = 1 := by
      unfold edgeWeight travelCost skippingCost skippedWaypoints
      norm_num [hd01]
    have hw02 : edgeWeight [((1:ℝ), (0:ℝ)), (2, 0), (3, 0)] [1] 1 0 0 2 = 3 := by
      unfold edgeWeight travelCost skippingCost skippedWaypoints
      norm_num [hd02]
    have hw12 : edgeWeight [((1:ℝ), (0:ℝ)), (2, 0), (3, 0)] [1] 1 0 1 2 = 1 := by
      unfold edgeWeight travelCost skippingCost skippedWaypoints
      norm_num [hd12]
    show (dLoop (buildGraph [((1:ℝ), (0:ℝ)), (2, 0), (3, 0)] [1] 1 0) 3
      [0, 1, 2] initCost).1 = some (2 : WithTop ℝ)
    simp only [buildGraph, denseE, List.length_cons, List.length_nil, dLoop,
      pickMin, relax, initCost, List.foldl_cons, List.foldl_nil]
    norm_num [hw01, hw02, hw12, List.erase_cons_head, List.erase_cons_tail,
      dLoop, pickMin, relax, initCost, h1top, h3top, hn31, h23]
    simp
  exact ⟨⟨zero_lt_one, le_refl 0, by simp, by simp, hrun1, hrun2⟩,
    C6_penalty_monotone [((1:ℝ), (0:ℝ)), (2, 0), (3, 0)] [0] 1 0 zero_lt_one
      (le_refl 0) (by simp) 0 1 (by simp)
      (by show (0:ℝ) ≤ 1; exact zero_le_one) (2 : WithTop ℝ) (2 : WithTop ℝ)
      hrun1 hrun2⟩

/-- Counterexample for C8 as stated: on a dict whose goal node is
unreachable (`edgeCost = {0: {}}`, nodes 0 and 1) the solver settles every
node and then returns the value infinity — it does not fail with any
UnreachableGoal error (no such check exists in the code). -/
theorem C8_counterexample :
    dijkstra ⟨[0], fun _ => [], fun _ _ => 0⟩ = some ⊤ := by
  have hp : pickMin initCost [0, 1] = 0 := by
    show (if initCost 1 < initCost 0 then 1 else 0) = 0
    rw [if_neg]
    exact not_top_lt
  show (dLoop ⟨[0], fun _ => [], fun _ _ => 0⟩ 2 [0, 1] initCost).1 = some ⊤
  simp only [dLoop, hp, List.erase_cons_head]
  simp only [List.cons_ne_nil, if_false, reduceIte]
  simp only [pickMin, List.foldl_nil, List.erase_cons_head, dLoop]
  simp [relax, initCost]

/-- Witness for C8 at a concrete builder-contract graph (two nodes, all
weights 1): the returned value 1 is finite. -/
theorem C8_goal_finite_witness :
    ((∀ i j : Nat, i < j → j < 2 → (0:ℝ) ≤ 1) ∧
      dijkstra (denseE 2 (fun _ _ => 1)) = some (1 : WithTop ℝ)) ∧
    (1 : WithTop ℝ) ≠ ⊤ := by
  have hrun : dijkstra (denseE 2 (fun _ _ => 1)) = some (1 : WithTop ℝ) := by
    show (dLoop (denseE 2 (fun _ _ => 1)) 2 [0, 1] initCost).1 =
      some (1 : WithTop ℝ)
    simp only [denseE, dLoop, pickMin, relax, initCost, List.foldl_cons,
      List.foldl_nil]
    have h1top : (1 : WithTop ℝ) < ⊤ := by
      exact_mod_cast WithTop.coe_lt_top (1:ℝ)
    norm_num [List.erase_cons_head, List.erase_cons_tail, dLoop, pickMin,
      relax, initCost, h1top]
  exact ⟨⟨fun i j _ _ => zero_le_one, hrun⟩,
    C8_goal_finite 2 (fun _ _ => 1) (fun i j _ _ => zero_le_one)
      (1 : WithTop ℝ) hrun⟩

/-- Counterexample for C9 as stated: on the dense three-node graph with
weights w(0,1) = 5, w(0,2) = 2, w(1,2) = 4 the goal is extracted second and
the loop dies with a KeyError after only 2 of 3 extractions. -/
theorem C9_counterexample :
    dijkstraRun (denseE 3
      (fun i j => if j = 1 then 5 else if i = 0 then 2 else 4)) = (none, 2) ∧
    (dNodes (denseE 3
      (fun i j => if j = 1 then 5 else if i = 0 then 2 else 4))).length = 3 := by
  refine ⟨?_, rfl⟩
  show dLoop (denseE 3
    (fun i j => if j = 1 then 5 else if i = 0 then 2 else 4)) 3 [0, 1, 2]
    initCost = (none, 2)
  simp only [denseE, dLoop, pickMin, relax, initCost, List.foldl_cons,
    List.foldl_nil]
  have ha : (5 : WithTop ℝ) < ⊤ := by exact_mod_cast WithTop.coe_lt_top (5:ℝ)
  have hb : (2 : WithTop ℝ) < ⊤ := by exact_mod_cast WithTop.coe_lt_top (2:ℝ)
  have hcc : (2 : WithTop ℝ) < (5 : WithTop ℝ) := by
    have h2 : ((2:ℝ) : WithTop ℝ) < ((5:ℝ) : WithTop ℝ) := by
      rw [WithTop.coe_lt_coe]
      norm_num
    exact_mod_cast h2
  norm_num [List.erase_cons_head, List.erase_cons_tail, dLoop, pickMin,
    relax, initCost, ha, hb, hcc]
  simp

/-- Witness for C9 at a concrete completed run (two nodes, weights 2): the
result is present and the count equals the node count. -/
theorem C9_extraction_count_witness :
    (dijkstraRun (denseE 2 (fun _ _ => 2))).1.isSome = true ∧
    (dijkstraRun (denseE 2 (fun _ _ => 2))).2 =
      (dNodes (denseE 2 (fun _ _ => 2))).length := by
  have hrun : dijkstraRun (denseE 2 (fun _ _ => 2)) =
      (some (2 : WithTop ℝ), 2) := by
    show dLoop (denseE 2 (fun _ _ => 2)) 2 [0, 1] initCost =
      (some (2 : WithTop ℝ), 2)
    simp only [denseE, dLoop, pickMin, relax, initCost, List.foldl_cons,
      List.foldl_nil]
    have h2top : (2 : WithTop ℝ) < ⊤ := by
      exact_mod_cast WithTop.coe_lt_top (2:ℝ)
    norm_num [List.erase_cons_head, List.erase_cons_tail, dLoop, pickMin,
      relax, initCost, h2top]
  refine ⟨by rw [hrun]; rfl, (C9_extraction_count (denseE 2 (fun _ _ => 2))).2
    (by rw [hrun]; rfl)⟩
